import Mathlib

/-!
# A verification development for the `rdx` RESP codec

This file is a shallow embedding, in Lean 4, of the Go package `rdx`
(files `resp.go`, `decode.go`, `bufpool.go`): a codec between RESP wire
frames and typed values.

Modelling conventions:

* Bytes are natural numbers; byte strings and byte streams are `List Nat`.
  Go strings (`Error`, `SimpleString`, `BulkString` payloads) are byte
  strings as well, since Go strings are arbitrary byte sequences.
* Go `int64` arithmetic wraps; `wrap64` applies two's-complement
  wraparound where an operation in the source can overflow.
* The byte source feeding the decoder is modelled as a fully available
  byte list, matching the `bytesReader` contract as instantiated by
  `bytes.Buffer` in the package's own tests: `ReadBytes('\n')` yields the
  bytes up to and including the first newline (or an end-of-stream error
  when there is none), and `Read(buf)` copies as many of the remaining
  bytes as fit, leaving the rest of `buf` zeroed.
* Writers: each `WriteTo` either delivers its full frame to the sink or
  fails before any byte reaches the caller-visible sink (the Go code
  stages bytes in a pooled scratch buffer and flushes it only on
  success).  So an encoder is modelled as returning `Except` — the byte
  list it yields is exactly what the sink receives, and an `.error`
  result means zero bytes reached the sink.
* `make([]byte, n)` with a negative `n` panics at run time in Go; that
  outcome is modelled explicitly as the `ReadResult.panicked` outcome,
  distinct from every error return.
-/

namespace Rdx

/-- Two's-complement wraparound of Go `int64` arithmetic. -/
def wrap64 (x : Int) : Int := (x + 2 ^ 63) % 2 ^ 64 - 2 ^ 63

/-- Largest `int64` value, `9223372036854775807`. -/
def int64Max : Int := 2 ^ 63 - 1

/-- Smallest `int64` value, `-9223372036854775808`. -/
def int64Min : Int := -(2 ^ 63)

/-- The decoder's error values, from `decode.go`: `ErrMissingPrefix`,
`ErrMissingCRLF`, `ErrIntRange`, `ErrInvalidInt`, `ErrEmptyInt`,
`ErrInvalidLength` (= `ErrBadLength`), `InvalidPrefixError`, and the
stream end/failure (`io.EOF`) propagated from the source. -/
inductive DecErr where
  | missingPrefixByte
  | missingCRLF
  | intRange
  | invalidInt
  | emptyInt
  | invalidLength
  | invalidPrefixByte (c : Nat)
  | eof
deriving DecidableEq, Repr

/-- Decoded messages: the `Msg` implementations the decoder can return
(`niltype`, `Int`, `String`, `Error`, `Array` in `resp.go`).  A Go
`String(nil)` and `String` of zero length are both `.str []`. -/
inductive Msg where
  | nil
  | int (v : Int)
  | str (s : List Nat)
  | err (s : List Nat)
  | arr (elems : List Msg)

/-- `parseInt`'s accumulation loop (`decode.go` lines 62-71): for each
byte, reject non-digits, multiply-add with `int64` wraparound, and flag
`ErrIntRange` when the running total's ordering reverses. -/
def parseIntLoop (sc : Int) : List Nat → Int → Except DecErr Int
  | [], n => .ok n
  | oct :: rest, n =>
    if oct < 48 ∨ 57 < oct then .error .invalidInt
    else if (sc = 1 ∧ n > wrap64 (n * 10 + ((oct : Int) - 48) * sc)) ∨
        (sc = -1 ∧ n < wrap64 (n * 10 + ((oct : Int) - 48) * sc)) then .error .intRange
    else parseIntLoop sc rest (wrap64 (n * 10 + ((oct : Int) - 48) * sc))

/-- `parseInt` (`decode.go` lines 51-74): optional leading `'-'`, then the
digit loop.  The Go code indexes `b[0]` unconditionally; its only caller,
`readInt`, never passes an empty slice (the empty case here is
unreachable). -/
def parseInt (b : List Nat) : Except DecErr Int :=
  match b with
  | [] => .error .invalidInt
  | b0 :: rest => if b0 = 45 then parseIntLoop (-1) rest 0 else parseIntLoop 1 (b0 :: rest) 0

/-- The slice `head[1 : len(head)-2]`: the bytes of a head line strictly
between the type prefix and the trailing CRLF. -/
def lineBody (head : List Nat) : List Nat := (head.drop 1).take (head.length - 3)

/-- `Reader.readInt` (`decode.go` lines 78-86): a three-byte head (prefix
plus bare CRLF) is `ErrEmptyInt`; otherwise parse the bytes between the
prefix and the CRLF. -/
def readInt (head : List Nat) : Except DecErr Int :=
  if head.length = 3 then .error .emptyInt
  else parseInt (lineBody head)

/-- The error translation in `readBulkString`/`readArray`:
`ErrInvalidInt` becomes `ErrInvalidLength`; other errors pass through. -/
def lenErr (e : DecErr) : DecErr := if e = .invalidInt then .invalidLength else e

/-- `bytes.HasSuffix(l, crlf)`. -/
def endsCRLF (l : List Nat) : Prop := l.drop (l.length - 2) = [13, 10]

instance (l : List Nat) : Decidable (endsCRLF l) := by
  unfold endsCRLF
  infer_instance

/-- `(*bufio.Reader).ReadBytes('\n')` over a fully available source:
the bytes through the first newline plus the remainder, or `none` when no
newline remains (the partial data is returned in Go alongside an error,
and `Reader.Read` discards it). -/
def readBytesNL : List Nat → Option (List Nat × List Nat)
  | [] => none
  | b :: rest =>
    if b = 10 then some ([b], rest)
    else
      match readBytesNL rest with
      | none => none
      | some (line, rem) => some (b :: line, rem)

/-- The outcome of one `Reader.Read` call: a message and the unconsumed
input, an error return, or a run-time panic (Go `make` with a negative
size). -/
inductive ReadResult where
  | ok (m : Msg) (rest : List Nat)
  | fail (e : DecErr)
  | panicked

/-- The outcome of the element loop in `readArray`. -/
inductive ElemsResult where
  | ok (ms : List Msg) (rest : List Nat)
  | fail (e : DecErr)
  | panicked

/-- `Reader.readBulkString` (`decode.go` lines 88-115) minus the head-line
read, which `Reader.Read` has already done: parse the length, handle the
`-1` nil sentinel and negative lengths, then read `length+2` payload
bytes into a zeroed buffer — ignoring the source's error, exactly as the
Go code ignores the result of `r.r.Read(buf)` — and demand the buffer end
in CRLF.  `make([]byte, length+2)` computes `length+2` with `int64`
wraparound and panics when the result is negative. -/
def readBulkString (head : List Nat) (input : List Nat) : ReadResult :=
  match readInt head with
  | .error e => .fail (lenErr e)
  | .ok length =>
    if length = -1 then .ok .nil input
    else if length < 0 then .fail .invalidLength
    else
      let size := wrap64 (length + 2)
      if size < 0 then .panicked
      else
        let buf := input.take size.toNat ++ List.replicate (size.toNat - input.length) 0
        let rest := input.drop size.toNat
        if endsCRLF buf then
          if length = 0 then .ok (.str []) rest
          else .ok (.str (buf.take (buf.length - 2))) rest
        else .fail .missingCRLF

/-- The element loop of `Reader.readArray` (`decode.go` lines 139-145),
parametrized by the `Read` call used per element: read once per declared
element, aborting on the first failure. -/
def readElemsWith (rd : List Nat → ReadResult) : Nat → List Nat → ElemsResult
  | 0, input => .ok [] input
  | k + 1, input =>
    match rd input with
    | .ok m rest =>
      match readElemsWith rd k rest with
      | .ok ms rest2 => .ok (m :: ms) rest2
      | .fail e => .fail e
      | .panicked => .panicked
    | .fail e => .fail e
    | .panicked => .panicked

/-- `Reader.Read` (`decode.go` lines 155-185), with a fuel parameter
bounding array-nesting depth (the Go recursion is bounded by the input
instead): read the head line, validate the CRLF terminator and the
presence of a type prefix, and dispatch on the prefix byte.  `'-'` and
`'+'` wrap the line body as `Error`/`String` (`readError`,
`readSimpleString`); `':'` parses an integer; `'$'` and `'*'` read a bulk
string or array. -/
def readF : Nat → List Nat → ReadResult
  | 0, _ => .fail .eof
  | f + 1, input =>
    match readBytesNL input with
    | none => .fail .eof
    | some (head, rest) =>
      if ¬ endsCRLF head then .fail .missingCRLF
      else if head.length = 2 then .fail .missingPrefixByte
      else
        let c := head.headD 0
        if c = 45 then .ok (.err (lineBody head)) rest
        else if c = 43 then .ok (.str (lineBody head)) rest
        else if c = 58 then
          match readInt head with
          | .error e => .fail e
          | .ok v => .ok (.int v) rest
        else if c = 36 then readBulkString head rest
        else if c = 42 then
          match readInt head with
          | .error e => .fail (lenErr e)
          | .ok length =>
            if length = -1 then .ok .nil rest
            else if length < 0 then .fail .invalidLength
            else if length = 0 then .ok (.arr []) rest
            else
              match readElemsWith (fun inp => readF f inp) length.toNat rest with
              | .ok ms rest2 => .ok (.arr ms) rest2
              | .fail e => .fail e
              | .panicked => .panicked
        else .fail (.invalidPrefixByte c)

/-- One top-level `Reader.Read` call on a fresh stream: fuel one more
than the input length always suffices, since every array-nesting level
consumes at least one byte of input before recursing. -/
def readMsg (input : List Nat) : ReadResult := readF (input.length + 1) input

/-- The CRLF frame terminator. -/
def crlf : List Nat := [13, 10]

/-- Digit-extraction loop for decimal rendering, fuelled so that it is
primitive recursive (the fuel is an upper bound on the digit count). -/
def natToDecimalFuel : Nat → Nat → List Nat → List Nat
  | 0, _, acc => acc
  | f + 1, n, acc => if n = 0 then acc else natToDecimalFuel f (n / 10) ((n % 10 + 48) :: acc)

/-- Decimal rendering of a natural number, as produced by Go's
`strconv.AppendInt` for non-negative values: most-significant digit
first, `"0"` for zero, no leading zeros. -/
def natToDecimal (n : Nat) : List Nat :=
  if n = 0 then [48] else natToDecimalFuel n n []

/-- Decimal rendering of an `int64`, as produced by `strconv.AppendInt`:
a `'-'` sign followed by the digits of the magnitude when negative. -/
def intToDecimal (v : Int) : List Nat :=
  if v < 0 then 45 :: natToDecimal v.natAbs else natToDecimal v.natAbs

/-- `putint` (`bufpool.go`): the decimal text of `n` followed by CRLF.
The callers in `resp.go` write the one-byte type prefix themselves. -/
def putint (n : Int) : List Nat := intToDecimal n ++ crlf

/-- The encoder's error values (`resp.go`): `ErrInvalidError` and
`ErrInvalidSimpleStr` (the latter is declared but never produced, since
simple strings are promoted instead of rejected). -/
inductive EncErr where
  | invalidError
  | invalidSimpleStr
deriving DecidableEq, Repr

/-- `strings.ContainsAny(s, "\r\n")`. -/
def containsCROrLF (s : List Nat) : Prop := 13 ∈ s ∨ 10 ∈ s

instance (s : List Nat) : Decidable (containsCROrLF s) := by
  unfold containsCROrLF
  infer_instance

/-- `Error.WriteTo` (`resp.go` lines 81-95): reject text containing CR or
LF before anything is staged; otherwise the frame is
`'-' ++ s ++ CRLF`. -/
def encodeError (s : List Nat) : Except EncErr (List Nat) :=
  if containsCROrLF s then .error .invalidError
  else .ok (45 :: s ++ crlf)

/-- `String.WriteTo` (`resp.go` lines 108-123): the frame
`'$' ++ decimal(len s) ++ CRLF ++ s ++ CRLF`. -/
def encodeString (s : List Nat) : List Nat := 36 :: putint s.length ++ s ++ crlf

/-- `Int.WriteTo` (`resp.go` lines 145-155): the frame
`':' ++ decimal(v) ++ CRLF`. -/
def encodeInt (v : Int) : List Nat := 58 :: putint v

/-- `niltype.WriteTo` (`resp.go` lines 132-136): the fixed frame
`"$-1\r\n"`. -/
def encodeNil : List Nat := [36, 45, 49, 13, 10]

/-- `BulkString.WriteTo` (`resp.go` lines 212-226): identical wire form
to `String.WriteTo`. -/
def encodeBulkString (s : List Nat) : List Nat := 36 :: putint s.length ++ s ++ crlf

/-- `SimpleString.WriteTo` (`resp.go` lines 243-257): text containing CR
or LF is silently re-encoded as a bulk string; otherwise the frame is
`'+' ++ s ++ CRLF`. -/
def encodeSimpleString (s : List Nat) : List Nat :=
  if containsCROrLF s then encodeBulkString s
  else 43 :: s ++ crlf

/-- `Float64.WriteTo` (`resp.go` lines 266-273), with the decimal text
produced by `strconv.AppendFloat(·, f, 'f', -1, 64)` abstracted as the
byte list `text` (its value is the one part of this method outside the
embedding).  `tmp` is the 32-byte array `{'+'}` — a `'+'` followed by 31
zero bytes — and the append destination handed to `AppendFloat` is
`tmp[1:]`, the 31 zero bytes *after* the `'+'`; `AppendFloat` returns
its destination with the text appended, CRLF is appended, and the result
is written to the sink in one `Write` call. -/
def float64WriteTo (text : List Nat) : List Nat :=
  ((43 :: List.replicate 31 0).drop 1 ++ text) ++ [13, 10]

/-- The encodable message variants of `resp.go` (`Float64` aside, whose
payload is an IEEE-754 double).  A Go-`nil` array element passes through
`ensure` and encodes as `.nil`. -/
inductive EMsg where
  | nil
  | int (v : Int)
  | str (s : List Nat)
  | err (s : List Nat)
  | bulk (s : List Nat)
  | simple (s : List Nat)
  | arr (elems : List EMsg)

mutual

/-- Dispatch of `Msg.WriteTo` over the encodable variants.  An `.ok`
result is the exact byte sequence delivered to the sink; `.error` means
the write failed with zero bytes committed to the caller-visible sink
(`Array.WriteTo` stages everything in a pooled buffer and returns
`(0, err)` without flushing on a child failure). -/
def encodeMsg : EMsg → Except EncErr (List Nat)
  | .nil => .ok encodeNil
  | .int v => .ok (encodeInt v)
  | .str s => .ok (encodeString s)
  | .err s => encodeError s
  | .bulk s => .ok (encodeBulkString s)
  | .simple s => .ok (encodeSimpleString s)
  | .arr ms =>
    match encodeElems ms with
    | .error e => .error e
    | .ok body => .ok (42 :: putint ms.length ++ body)

/-- The element loop of `Array.WriteTo` (`resp.go` lines 187-192):
encode each element in order, aborting on the first failure. -/
def encodeElems : List EMsg → Except EncErr (List Nat)
  | [] => .ok []
  | m :: ms =>
    match encodeMsg m with
    | .error e => .error e
    | .ok b =>
      match encodeElems ms with
      | .error e => .error e
      | .ok bs => .ok (b ++ bs)

end

/-! ## Decimal values of digit strings -/

/-- The exact (unbounded) decimal value of a big-endian digit-byte
string, accumulated the way `parseInt` accumulates it: `a` is the value
of the digits already consumed. -/
def dvalFrom (a : Int) : List Nat → Int
  | [] => a
  | d :: ds => dvalFrom (a * 10 + ((d : Int) - 48)) ds

/-- The negative-sign counterpart of `dvalFrom`: the accumulation
`parseInt` performs after a leading `'-'`. -/
def dvalFromNeg (a : Int) : List Nat → Int
  | [] => a
  | d :: ds => dvalFromNeg (a * 10 - ((d : Int) - 48)) ds

/-- Every byte of the list is an ASCII decimal digit. -/
def IsDigits (ds : List Nat) : Prop := ∀ d ∈ ds, 48 ≤ d ∧ d ≤ 57

instance (ds : List Nat) : Decidable (IsDigits ds) := by
  unfold IsDigits
  infer_instance

theorem wrap64_eq_self {x : Int} (h1 : int64Min ≤ x) (h2 : x ≤ int64Max) : wrap64 x = x := by
  unfold wrap64
  unfold int64Min at h1
  unfold int64Max at h2
  have h3 : 0 ≤ x + 2 ^ 63 := by omega
  have h4 : x + 2 ^ 63 < 2 ^ 64 := by omega
  rw [Int.emod_eq_of_lt h3 h4]
  omega

theorem dvalFrom_append (a : Int) (xs ys : List Nat) :
    dvalFrom a (xs ++ ys) = dvalFrom (dvalFrom a xs) ys := by
  induction xs generalizing a with
  | nil => rfl
  | cons d ds ih =>
    simp only [List.cons_append, dvalFrom]
    exact ih _

theorem dvalFrom_eq (a : Int) (ds : List Nat) :
    dvalFrom a ds = a * 10 ^ ds.length + dvalFrom 0 ds := by
  induction ds generalizing a with
  | nil => simp [dvalFrom]
  | cons d ds ih =>
    simp only [dvalFrom, List.length_cons]
    rw [ih, ih (0 * 10 + ((d : Int) - 48))]
    ring

theorem dvalFromNeg_eq_neg (a : Int) (ds : List Nat) :
    dvalFromNeg a ds = -(dvalFrom (-a) ds) := by
  induction ds generalizing a with
  | nil => simp [dvalFrom, dvalFromNeg]
  | cons d ds ih =>
    simp only [dvalFrom, dvalFromNeg]
    rw [ih]
    ring_nf

theorem isDigits_tail {d : Nat} {ds : List Nat} (h : IsDigits (d :: ds)) : IsDigits ds :=
  fun x hx => h x (List.mem_cons_of_mem _ hx)

theorem isDigits_head {d : Nat} {ds : List Nat} (h : IsDigits (d :: ds)) :
    48 ≤ d ∧ d ≤ 57 :=
  h d (List.mem_cons_self _ _)

theorem dvalFrom_zero_nonneg {ds : List Nat} (h : IsDigits ds) : 0 ≤ dvalFrom 0 ds := by
  induction ds with
  | nil => simp [dvalFrom]
  | cons d ds ih =>
    have hd := isDigits_head h
    have hd48 : (48 : Int) ≤ (d : Int) := by exact_mod_cast hd.1
    have hpow : (0 : Int) ≤ 10 ^ ds.length := by positivity
    simp only [dvalFrom]
    rw [dvalFrom_eq]
    have h1 : (0 : Int) ≤ (0 * 10 + ((d : Int) - 48)) := by omega
    have h2 := ih (isDigits_tail h)
    nlinarith

theorem le_dvalFrom {b : Int} {ds : List Nat} (h : IsDigits ds) (hb : 0 ≤ b) :
    b ≤ dvalFrom b ds := by
  rw [dvalFrom_eq]
  have h1 : (1 : Int) ≤ 10 ^ ds.length := one_le_pow₀ (by norm_num)
  have h2 := dvalFrom_zero_nonneg h
  nlinarith

/-! ## `parseIntLoop` computes exact in-range values -/

theorem parseIntLoop_pos {ds : List Nat} (h : IsDigits ds) :
    ∀ a : Int, 0 ≤ a → dvalFrom a ds ≤ int64Max →
      parseIntLoop 1 ds a = .ok (dvalFrom a ds) := by
  induction ds with
  | nil => intro a _ _; rfl
  | cons d ds ih =>
    intro a ha hle
    have hd := isDigits_head h
    have hd48 : (48 : Int) ≤ (d : Int) := by exact_mod_cast hd.1
    have hd57 : (d : Int) ≤ 57 := by exact_mod_cast hd.2
    have hdig : ¬ (d < 48 ∨ 57 < d) := by omega
    have hstep : (0 : Int) ≤ a * 10 + ((d : Int) - 48) * 1 := by nlinarith
    have hval : dvalFrom a (d :: ds) = dvalFrom (a * 10 + ((d : Int) - 48)) ds := rfl
    have hmono : a * 10 + ((d : Int) - 48) ≤ dvalFrom (a * 10 + ((d : Int) - 48)) ds :=
      le_dvalFrom (isDigits_tail h) (by nlinarith)
    have hble : a * 10 + ((d : Int) - 48) * 1 ≤ int64Max := by
      rw [hval] at hle
      omega
    have hwrap : wrap64 (a * 10 + ((d : Int) - 48) * 1) = a * 10 + ((d : Int) - 48) * 1 := by
      refine wrap64_eq_self ?_ hble
      unfold int64Min
      omega
    have hnodec : ¬ (((1 : Int) = 1 ∧ a > wrap64 (a * 10 + ((d : Int) - 48) * 1)) ∨
        ((1 : Int) = -1 ∧ a < wrap64 (a * 10 + ((d : Int) - 48) * 1))) := by
      rw [hwrap]
      push_neg
      refine ⟨fun _ => by nlinarith, fun h1 => absurd h1 (by norm_num)⟩
    rw [parseIntLoop, if_neg hdig, if_neg hnodec, hwrap, hval]
    have harith : a * 10 + ((d : Int) - 48) * 1 = a * 10 + ((d : Int) - 48) := by ring
    rw [harith]
    exact ih (isDigits_tail h) _ (by omega) (by rw [hval] at hle; exact hle)

theorem parseIntLoop_neg {ds : List Nat} (h : IsDigits ds) :
    ∀ a : Int, a ≤ 0 → int64Min ≤ dvalFromNeg a ds →
      parseIntLoop (-1) ds a = .ok (dvalFromNeg a ds) := by
  induction ds with
  | nil => intro a _ _; rfl
  | cons d ds ih =>
    intro a ha hle
    have hd := isDigits_head h
    have hd48 : (48 : Int) ≤ (d : Int) := by exact_mod_cast hd.1
    have hd57 : (d : Int) ≤ 57 := by exact_mod_cast hd.2
    have hdig : ¬ (d < 48 ∨ 57 < d) := by omega
    have harith : a * 10 + ((d : Int) - 48) * (-1) = a * 10 - ((d : Int) - 48) := by ring
    have hstep : a * 10 - ((d : Int) - 48) ≤ 0 := by nlinarith
    have hval : dvalFromNeg a (d :: ds) = dvalFromNeg (a * 10 - ((d : Int) - 48)) ds := rfl
    have hmono : dvalFromNeg (a * 10 - ((d : Int) - 48)) ds ≤ a * 10 - ((d : Int) - 48) := by
      rw [dvalFromNeg_eq_neg]
      have := le_dvalFrom (isDigits_tail h) (b := -(a * 10 - ((d : Int) - 48))) (by omega)
      omega
    have hbge : int64Min ≤ a * 10 - ((d : Int) - 48) := by
      rw [hval] at hle
      omega
    have hwrap : wrap64 (a * 10 + ((d : Int) - 48) * (-1)) = a * 10 - ((d : Int) - 48) := by
      rw [harith]
      refine wrap64_eq_self hbge ?_
      unfold int64Max
      omega
    have hnodec : ¬ (((-1 : Int) = 1 ∧ a > wrap64 (a * 10 + ((d : Int) - 48) * (-1))) ∨
        ((-1 : Int) = -1 ∧ a < wrap64 (a * 10 + ((d : Int) - 48) * (-1)))) := by
      rw [hwrap]
      push_neg
      refine ⟨fun h1 => absurd h1 (by norm_num), fun _ => by nlinarith⟩
    rw [parseIntLoop, if_neg hdig, if_neg hnodec, hwrap, hval]
    exact ih (isDigits_tail h) _ hstep (by rw [hval] at hle; exact hle)

/-- `parseIntLoop` can fail only with `ErrInvalidInt` or `ErrIntRange`,
never with the empty-field error. -/
theorem parseIntLoop_ne_empty (sc : Int) (ds : List Nat) (a : Int) :
    parseIntLoop sc ds a ≠ .error .emptyInt := by
  induction ds generalizing a with
  | nil => simp [parseIntLoop]
  | cons d ds ih =>
    rw [parseIntLoop]
    split
    · simp
    split
    · simp
    · exact ih _

/-! ## `parseInt` on well-formed decimal strings -/

theorem parseInt_digits {ds : List Nat} (h : IsDigits ds) (hne : ds ≠ [])
    (hle : dvalFrom 0 ds ≤ int64Max) : parseInt ds = .ok (dvalFrom 0 ds) := by
  cases ds with
  | nil => exact absurd rfl hne
  | cons d ds =>
    have hd := isDigits_head h
    have h45 : d ≠ 45 := by omega
    rw [parseInt, if_neg h45]
    exact parseIntLoop_pos h 0 le_rfl hle

theorem parseInt_neg_digits {ds : List Nat} (h : IsDigits ds)
    (hge : int64Min ≤ -(dvalFrom 0 ds)) : parseInt (45 :: ds) = .ok (-(dvalFrom 0 ds)) := by
  rw [parseInt, if_pos rfl]
  have hz : dvalFromNeg 0 ds = -(dvalFrom 0 ds) := by
    rw [dvalFromNeg_eq_neg]
    norm_num
  rw [← hz] at hge ⊢
  exact parseIntLoop_neg h 0 le_rfl hge

theorem parseInt_ne_empty (b : List Nat) : parseInt b ≠ .error .emptyInt := by
  cases b with
  | nil => simp [parseInt]
  | cons b0 rest =>
    rw [parseInt]
    split
    · exact parseIntLoop_ne_empty _ _ _
    · exact parseIntLoop_ne_empty _ _ _

/-! ## Decimal rendering produces digit strings with the right value -/

theorem natToDecimalFuel_eq (f : Nat) :
    ∀ n acc, n ≤ f →
      natToDecimalFuel f n acc = ((Nat.digits 10 n).map (fun d => d + 48)).reverse ++ acc := by
  induction f with
  | zero =>
    intro n acc hn
    have h0 : n = 0 := by omega
    subst h0
    simp [natToDecimalFuel]
  | succ f ih =>
    intro n acc hn
    by_cases h0 : n = 0
    · subst h0
      simp [natToDecimalFuel]
    · rw [natToDecimalFuel, if_neg h0]
      have hdiv : n / 10 ≤ f := by
        have hlt : n / 10 < n := Nat.div_lt_self (Nat.pos_of_ne_zero h0) (by norm_num)
        omega
      rw [ih (n / 10) _ hdiv,
        Nat.digits_def' (by norm_num : (1 : Nat) < 10) (Nat.pos_of_ne_zero h0)]
      simp

theorem natToDecimal_eq {n : Nat} (hn : n ≠ 0) :
    natToDecimal n = ((Nat.digits 10 n).map (fun d => d + 48)).reverse := by
  rw [natToDecimal, if_neg hn, natToDecimalFuel_eq n n [] le_rfl, List.append_nil]

theorem isDigits_natToDecimal (n : Nat) : IsDigits (natToDecimal n) := by
  by_cases hn : n = 0
  · subst hn
    intro d hd
    simp [natToDecimal] at hd
    omega
  · rw [natToDecimal_eq hn]
    intro d hd
    rw [List.mem_reverse, List.mem_map] at hd
    obtain ⟨x, hx, rfl⟩ := hd
    have := Nat.digits_lt_base (by norm_num) hx
    omega

theorem natToDecimal_ne_nil (n : Nat) : natToDecimal n ≠ [] := by
  by_cases hn : n = 0
  · subst hn
    simp [natToDecimal]
  · rw [natToDecimal_eq hn]
    simp [Nat.digits_ne_nil_iff_ne_zero, hn]

theorem dvalFrom_mapRev (L : List Nat) :
    ∀ a : Int, dvalFrom a ((L.map (fun d => d + 48)).reverse)
      = a * 10 ^ L.length + Nat.ofDigits (10 : Int) L := by
  induction L with
  | nil =>
    intro a
    simp [dvalFrom, Nat.ofDigits]
  | cons x L ih =>
    intro a
    simp only [List.map_cons, List.reverse_cons, List.length_cons]
    rw [dvalFrom_append, ih]
    simp only [dvalFrom]
    rw [show Nat.ofDigits (10 : Int) (x :: L) = (x : Int) + 10 * Nat.ofDigits (10 : Int) L
      from rfl]
    push_cast
    ring

theorem dvalFrom_natToDecimal (n : Nat) : dvalFrom 0 (natToDecimal n) = (n : Int) := by
  by_cases hn : n = 0
  · subst hn
    norm_num [natToDecimal, dvalFrom]
  · rw [natToDecimal_eq hn, dvalFrom_mapRev]
    have h2 := Nat.coe_int_ofDigits 10 (Nat.digits 10 n)
    rw [Nat.ofDigits_digits] at h2
    push_cast at h2
    rw [← h2]
    ring

theorem parseInt_natToDecimal {n : Nat} (hle : (n : Int) ≤ int64Max) :
    parseInt (natToDecimal n) = .ok n := by
  have h1 := parseInt_digits (isDigits_natToDecimal n) (natToDecimal_ne_nil n)
    (by rw [dvalFrom_natToDecimal]; exact hle)
  rw [h1, dvalFrom_natToDecimal]

theorem parseInt_intToDecimal {v : Int} (h1 : int64Min ≤ v) (h2 : v ≤ int64Max) :
    parseInt (intToDecimal v) = .ok v := by
  have habs : (v.natAbs : Int) = if 0 ≤ v then v else -v := by
    split
    · exact Int.natAbs_of_nonneg (by assumption)
    · omega
  by_cases hv : v < 0
  · rw [intToDecimal, if_pos hv]
    have hval : dvalFrom 0 (natToDecimal v.natAbs) = -v := by
      rw [dvalFrom_natToDecimal]
      omega
    rw [parseInt_neg_digits (isDigits_natToDecimal _) (by rw [hval]; omega), hval]
    norm_num
  · rw [intToDecimal, if_neg hv]
    have hvn : v = (v.natAbs : Int) := by omega
    rw [parseInt_natToDecimal (by omega)]
    rw [← hvn]

/-- The bytes of a rendered decimal: digits and possibly a leading
`'-'`  — in particular never LF, so a rendered head line contains exactly
one newline, at its end. -/
theorem not_mem_intToDecimal_of_lt {v : Int} {b : Nat} (hb : b < 45) :
    b ∉ intToDecimal v := by
  have hdig := isDigits_natToDecimal v.natAbs
  rw [intToDecimal]
  split
  · intro hmem
    rcases List.mem_cons.mp hmem with h45 | hmem2
    · omega
    · have := hdig b hmem2
      omega
  · intro hmem
    have := hdig b hmem
    omega

theorem intToDecimal_ne_nil (v : Int) : intToDecimal v ≠ [] := by
  rw [intToDecimal]
  split
  · simp
  · exact natToDecimal_ne_nil _

/-! ## Head-line plumbing for `Reader.Read` -/

theorem readBytesNL_append {xs : List Nat} (h : 10 ∉ xs) (rest : List Nat) :
    readBytesNL (xs ++ 10 :: rest) = some (xs ++ [10], rest) := by
  induction xs with
  | nil => simp [readBytesNL]
  | cons b xs ih =>
    have hb : b ≠ 10 := fun hb => h (hb ▸ List.mem_cons_self b xs)
    have hxs : 10 ∉ xs := fun hx => h (List.mem_cons_of_mem _ hx)
    simp only [List.cons_append, readBytesNL, hb, if_false, List.append_eq]
    rw [ih hxs]

theorem endsCRLF_append (xs : List Nat) : endsCRLF (xs ++ [13, 10]) := by
  unfold endsCRLF
  have hlen : (xs ++ [13, 10]).length - 2 = xs.length := by simp
  rw [hlen, List.drop_left]

theorem lineBody_cons (c : Nat) (xs : List Nat) :
    lineBody (c :: xs ++ [13, 10]) = xs := by
  show ((c :: xs ++ [13, 10]).drop 1).take ((c :: xs ++ [13, 10]).length - 3) = xs
  have h2 : (c :: xs ++ [13, 10]).length - 3 = xs.length := by simp
  rw [h2]
  show (xs ++ [13, 10]).take xs.length = xs
  exact List.take_left xs [13, 10]

theorem readInt_cons (c : Nat) (xs : List Nat) :
    readInt (c :: xs ++ [13, 10]) =
      if xs = [] then .error .emptyInt else parseInt xs := by
  unfold readInt
  rw [lineBody_cons]
  have hlen : (c :: xs ++ [13, 10]).length = xs.length + 3 := by simp
  rw [hlen]
  by_cases hx : xs = []
  · subst hx
    norm_num
  · have h3 : ¬ (xs.length + 3 = 3) := by
      intro hcon
      exact hx (List.length_eq_zero.mp (by omega))
    rw [if_neg h3, if_neg hx]

/-- One step of `Reader.Read` on a stream whose first line is
`c ++ xs ++ CRLF` with no earlier newline: the head-line read, the CRLF
and prefix validations, and the dispatch, all computed away. -/
theorem readF_line (f : Nat) (c : Nat) (xs rest : List Nat)
    (hc10 : c ≠ 10) (h10 : 10 ∉ xs) :
    readF (f + 1) (c :: xs ++ [13, 10] ++ rest) =
      (if c = 45 then .ok (.err xs) rest
      else if c = 43 then .ok (.str xs) rest
      else if c = 58 then
        match readInt (c :: xs ++ [13, 10]) with
        | .error e => .fail e
        | .ok v => .ok (.int v) rest
      else if c = 36 then readBulkString (c :: xs ++ [13, 10]) rest
      else if c = 42 then
        match readInt (c :: xs ++ [13, 10]) with
        | .error e => .fail (lenErr e)
        | .ok length =>
          if length = -1 then .ok .nil rest
          else if length < 0 then .fail .invalidLength
          else if length = 0 then .ok (.arr []) rest
          else
            match readElemsWith (fun inp => readF f inp) length.toNat rest with
            | .ok ms rest2 => .ok (.arr ms) rest2
            | .fail e => .fail e
            | .panicked => .panicked
      else .fail (.invalidPrefixByte c)) := by
  have hnl : 10 ∉ c :: xs ++ [13] := by
    intro hmem
    rcases List.mem_cons.mp hmem with h | h
    · exact hc10 h.symm
    · rcases List.mem_append.mp h with h | h
      · exact h10 h
      · simp at h
  have hrb : readBytesNL (c :: xs ++ [13, 10] ++ rest) = some (c :: xs ++ [13, 10], rest) := by
    have hsplit : c :: xs ++ [13, 10] ++ rest = (c :: xs ++ [13]) ++ 10 :: rest := by simp
    rw [hsplit, readBytesNL_append hnl]
    simp
  have hends : endsCRLF (c :: xs ++ [13, 10]) := endsCRLF_append (c :: xs)
  have hlen2 : ¬ ((c :: xs ++ [13, 10]).length = 2) := by simp
  conv_lhs => rw [readF]
  rw [hrb]
  dsimp only
  rw [if_neg (not_not_intro hends), if_neg hlen2, lineBody_cons]
  rfl

theorem readMsg_minus (xs rest : List Nat) (h10 : 10 ∉ xs) :
    readMsg (45 :: xs ++ [13, 10] ++ rest) = .ok (.err xs) rest := by
  unfold readMsg
  rw [readF_line _ 45 xs rest (by norm_num) h10]
  norm_num

theorem readMsg_plus (xs rest : List Nat) (h10 : 10 ∉ xs) :
    readMsg (43 :: xs ++ [13, 10] ++ rest) = .ok (.str xs) rest := by
  unfold readMsg
  rw [readF_line _ 43 xs rest (by norm_num) h10]
  norm_num

theorem readMsg_colon (xs rest : List Nat) (h10 : 10 ∉ xs) :
    readMsg (58 :: xs ++ [13, 10] ++ rest) =
      match (if xs = [] then Except.error DecErr.emptyInt else parseInt xs) with
      | .error e => .fail e
      | .ok v => .ok (.int v) rest := by
  unfold readMsg
  rw [readF_line _ 58 xs rest (by norm_num) h10]
  norm_num
  congr 1
  exact readInt_cons 58 xs

theorem readMsg_dollar (xs rest : List Nat) (h10 : 10 ∉ xs) :
    readMsg (36 :: xs ++ [13, 10] ++ rest) = readBulkString (36 :: xs ++ [13, 10]) rest := by
  unfold readMsg
  rw [readF_line _ 36 xs rest (by norm_num) h10]
  norm_num

/-! ## `readBulkString` on exact and on truncated payloads -/

/-- `readBulkString` with its `let` bindings expanded. -/
theorem readBulkString_eq (head input : List Nat) :
    readBulkString head input =
      match readInt head with
      | .error e => .fail (lenErr e)
      | .ok length =>
        if length = -1 then .ok .nil input
        else if length < 0 then .fail .invalidLength
        else if wrap64 (length + 2) < 0 then .panicked
        else if endsCRLF (input.take (wrap64 (length + 2)).toNat
            ++ List.replicate ((wrap64 (length + 2)).toNat - input.length) 0) then
          if length = 0 then .ok (.str []) (input.drop (wrap64 (length + 2)).toNat)
          else .ok (.str ((input.take (wrap64 (length + 2)).toNat
              ++ List.replicate ((wrap64 (length + 2)).toNat - input.length) 0).take
              ((input.take (wrap64 (length + 2)).toNat
              ++ List.replicate ((wrap64 (length + 2)).toNat - input.length) 0).length - 2)))
            (input.drop (wrap64 (length + 2)).toNat)
        else .fail .missingCRLF := rfl

/-- A bulk-string body whose declared length matches the payload exactly:
the decoder returns the payload and consumes the whole input. -/
theorem readBulkString_exact (s xs : List Nat)
    (hri : readInt (36 :: xs ++ [13, 10]) = .ok (s.length : Int))
    (hbound : (s.length : Int) + 2 ≤ int64Max) :
    readBulkString (36 :: xs ++ [13, 10]) (s ++ [13, 10]) = .ok (.str s) [] := by
  rw [readBulkString_eq, hri]
  dsimp only
  have hge : (0 : Int) ≤ (s.length : Int) := by positivity
  have hwrap : wrap64 ((s.length : Int) + 2) = (s.length : Int) + 2 :=
    wrap64_eq_self (by unfold int64Min; omega) hbound
  rw [if_neg (by omega : ¬ ((s.length : Int) = -1)),
    if_neg (by omega : ¬ ((s.length : Int) < 0)), hwrap,
    if_neg (by omega : ¬ ((s.length : Int) + 2 < 0))]
  have htn : ((s.length : Int) + 2).toNat = s.length + 2 := by omega
  rw [htn]
  have hlen : (s ++ [13, 10]).length = s.length + 2 := by simp
  have htake : (s ++ [13, 10]).take (s.length + 2) = s ++ [13, 10] :=
    List.take_of_length_le (by omega)
  have hdrop : (s ++ [13, 10]).drop (s.length + 2) = [] :=
    List.drop_of_length_le (by omega)
  have hrep : s.length + 2 - (s ++ [13, 10]).length = 0 := by omega
  rw [htake, hdrop, hrep, List.replicate, List.append_nil]
  rw [if_pos (endsCRLF_append s)]
  by_cases h0 : (s.length : Int) = 0
  · have hs : s = [] := List.length_eq_zero.mp (by exact_mod_cast h0)
    rw [if_pos h0, hs]
  · rw [if_neg h0, hlen]
    have htake2 : (s ++ [13, 10]).take (s.length + 2 - 2) = s := by
      have h2 : s.length + 2 - 2 = s.length := by omega
      rw [h2]
      exact List.take_left s [13, 10]
    rw [htake2]

/-- The tail of any list ending in a positive number of padding zeroes is
not CRLF-terminated. -/
theorem not_endsCRLF_pad (pre : List Nat) {k : Nat} (hk : 0 < k) :
    ¬ endsCRLF (pre ++ List.replicate k 0) := by
  intro hends
  have hlast : (pre ++ List.replicate k 0).getLast? = some 10 := by
    have hsplit := List.take_append_drop
      ((pre ++ List.replicate k 0).length - 2) (pre ++ List.replicate k 0)
    rw [endsCRLF] at hends
    rw [← hsplit, hends]
    exact List.getLast?_append_of_ne_nil _ (by simp)
  have hlast2 : (pre ++ List.replicate k 0).getLast? = some 0 := by
    cases k with
    | zero => omega
    | succ j =>
      rw [List.replicate_succ' j 0, ← List.append_assoc]
      exact List.getLast?_append_of_ne_nil _ (by simp)
  rw [hlast] at hlast2
  simp at hlast2

/-- A bulk-string payload read that comes up short (the source is
exhausted before `length+2` bytes arrive): the zero-padded buffer cannot
end in CRLF, so the decoder reports `ErrMissingCRLF` — the source's own
end-of-stream condition was discarded. -/
theorem readBulkString_short (xs input : List Nat) (L : Int)
    (hri : readInt (36 :: xs ++ [13, 10]) = .ok L) (hge : 0 ≤ L)
    (hbound : L + 2 ≤ int64Max) (hshort : input.length < L.toNat + 2) :
    readBulkString (36 :: xs ++ [13, 10]) input = .fail .missingCRLF := by
  rw [readBulkString_eq, hri]
  dsimp only
  have hwrap : wrap64 (L + 2) = L + 2 :=
    wrap64_eq_self (by unfold int64Min; omega) hbound
  rw [if_neg (by omega : ¬ (L = -1)), if_neg (by omega : ¬ (L < 0)), hwrap,
    if_neg (by omega : ¬ (L + 2 < 0))]
  have htn : (L + 2).toNat = L.toNat + 2 := by omega
  rw [htn]
  have hk : 0 < L.toNat + 2 - input.length := by omega
  rw [if_neg (not_endsCRLF_pad _ hk)]

/-! ## Encoder failure analysis -/

mutual

/-- The only failure any encoder can produce is `ErrInvalidError`
(`ErrInvalidSimpleStr` is declared in `resp.go` but never returned,
since simple strings are promoted rather than rejected). -/
theorem encodeMsg_error_invalid :
    ∀ (m : EMsg) (e : EncErr), encodeMsg m = .error e → e = .invalidError
  | .nil, e, h => by simp [encodeMsg] at h
  | .int v, e, h => by simp [encodeMsg] at h
  | .str s, e, h => by simp [encodeMsg] at h
  | .bulk s, e, h => by simp [encodeMsg] at h
  | .simple s, e, h => by simp [encodeMsg] at h
  | .err s, e, h => by
    rw [show encodeMsg (.err s) = encodeError s from by rw [encodeMsg]] at h
    rw [encodeError] at h
    split at h
    · exact (Except.error.injEq _ _).mp h |>.symm
    · exact absurd h (by simp)
  | .arr ms, e, h => by
    rw [encodeMsg] at h
    cases hel : encodeElems ms with
    | error e2 =>
      rw [hel] at h
      simp only at h
      injection h with h2
      exact h2 ▸ encodeElems_error_invalid ms e2 hel
    | ok body =>
      rw [hel] at h
      simp at h

theorem encodeElems_error_invalid :
    ∀ (ms : List EMsg) (e : EncErr), encodeElems ms = .error e → e = .invalidError
  | [], e, h => by simp [encodeElems] at h
  | m :: ms, e, h => by
    rw [encodeElems] at h
    cases hm : encodeMsg m with
    | error e2 =>
      rw [hm] at h
      simp only at h
      injection h with h2
      exact h2 ▸ encodeMsg_error_invalid m e2 hm
    | ok b =>
      rw [hm] at h
      simp only at h
      cases hel : encodeElems ms with
      | error e2 =>
        rw [hel] at h
        simp only at h
        injection h with h2
        exact h2 ▸ encodeElems_error_invalid ms e2 hel
      | ok bs =>
        rw [hel] at h
        simp at h

end

/-- An element list containing a forbidden `Error` text makes the whole
element loop fail with `ErrInvalidError`. -/
theorem encodeElems_mem_invalid {s : List Nat} (hs : containsCROrLF s) :
    ∀ ms : List EMsg, EMsg.err s ∈ ms → encodeElems ms = .error .invalidError := by
  intro ms
  induction ms with
  | nil =>
    intro h
    simp at h
  | cons m ms ih =>
    intro hmem
    rw [encodeElems]
    rcases List.mem_cons.mp hmem with heq | hmem2
    · rw [← heq]
      rw [show encodeMsg (.err s) = encodeError s from by rw [encodeMsg]]
      rw [encodeError, if_pos hs]
    · cases hm : encodeMsg m with
      | error e =>
        have he : e = .invalidError := encodeMsg_error_invalid m e hm
        subst he
        rfl
      | ok b =>
        rw [ih hmem2]

/-! ## Claim theorems -/

/-- **C1.** For every signed 64-bit integer `v`, encoding `Int(v)` produces
the frame `':' ++ decimal(v) ++ CRLF`, and decoding that frame with
`Reader.Read` returns exactly `Int(v)`, including at int64 min
(`-9223372036854775808`) and int64 max (`9223372036854775807`). -/
theorem c1_int_roundtrip (v : Int) (h1 : int64Min ≤ v) (h2 : v ≤ int64Max) :
    encodeInt v = 58 :: intToDecimal v ++ crlf ∧
      readMsg (encodeInt v) = .ok (.int v) [] := by
  refine ⟨rfl, ?_⟩
  have h10 : 10 ∉ intToDecimal v := not_mem_intToDecimal_of_lt (by norm_num)
  have hshape : encodeInt v = 58 :: intToDecimal v ++ [13, 10] ++ [] := by
    simp [encodeInt, putint, crlf]
  rw [hshape, readMsg_colon _ _ h10, if_neg (intToDecimal_ne_nil v),
    parseInt_intToDecimal h1 h2]

/-- Witness for `c1_int_roundtrip`, at both int64 extremes. -/
theorem c1_int_roundtrip_witness :
    readMsg (encodeInt (-9223372036854775808)) = .ok (.int (-9223372036854775808)) [] ∧
      readMsg (encodeInt 9223372036854775807) = .ok (.int 9223372036854775807) [] :=
  ⟨(c1_int_roundtrip (-9223372036854775808) (by decide) (by decide)).2,
   (c1_int_roundtrip 9223372036854775807 (by decide) (by decide)).2⟩

/-- **C2.** For every byte string `s` (empty or not, CRLF bytes allowed),
`String.WriteTo` emits `'$' ++ decimal(len s) ++ CRLF ++ s ++ CRLF` and
decoding it returns exactly `String(s)`; the Go distinction between the
empty-but-non-nil `String` and a nil one has no counterpart here (both
are `.str []`).  The length hypothesis is the bound Go's `int` length
always satisfies. -/
theorem c2_string_roundtrip (s : List Nat) (hlen : (s.length : Int) + 2 ≤ int64Max) :
    encodeString s = 36 :: putint (s.length : Int) ++ s ++ crlf ∧
      readMsg (encodeString s) = .ok (.str s) [] := by
  refine ⟨rfl, ?_⟩
  have h10 : 10 ∉ intToDecimal ((s.length : Nat) : Int) :=
    not_mem_intToDecimal_of_lt (by norm_num)
  have hshape : encodeString s
      = 36 :: intToDecimal ((s.length : Nat) : Int) ++ [13, 10] ++ (s ++ [13, 10]) := by
    simp [encodeString, putint, crlf]
  rw [hshape, readMsg_dollar _ _ h10]
  apply readBulkString_exact s _ _ hlen
  rw [readInt_cons, if_neg (intToDecimal_ne_nil _)]
  exact parseInt_intToDecimal
    (le_trans (by norm_num [int64Min]) (by positivity : (0 : Int) ≤ (s.length : Int)))
    (by omega)

/-- Witness for `c2_string_roundtrip`: a two-byte payload and the empty
payload. -/
theorem c2_string_roundtrip_witness :
    readMsg (encodeString [104, 105]) = .ok (.str [104, 105]) [] ∧
      readMsg (encodeString []) = .ok (.str []) [] :=
  ⟨(c2_string_roundtrip [104, 105] (by decide)).2,
   (c2_string_roundtrip [] (by decide)).2⟩

/-- **C3** (counterexample).  The claim says every digit sequence whose
decimal value lies outside the int64 range fails with the out-of-range
error; but the frame `":21000000000000000000\r\n"` (value
`21000000000000000000 > 2^63 - 1`) decodes *successfully* to the wrapped
value `2553255926290448384`, because the multiply-add wrapped past the
entire `int64` range without reversing the ordering of the running
total. -/
theorem c3_counterexample :
    readMsg [58, 50, 49, 48, 48, 48, 48, 48, 48, 48, 48, 48, 48, 48, 48, 48, 48, 48,
        48, 48, 48, 13, 10] = .ok (.int 2553255926290448384) [] ∧
      int64Max < 21000000000000000000 ∧ (2553255926290448384 : Int) ≠ 21000000000000000000 :=
  ⟨rfl, by decide, by decide⟩

/-- **C3** (amended).  Digit sequences (optional leading `'-'`) whose
decimal value is in the signed 64-bit range parse to the exact value,
including int64 min and max; the quoted just-out-of-range boundary
sequences `9223372036854775808` and `-9223372036854775809` fail with the
out-of-range error; but the incremental guard does not reject *every*
out-of-range sequence (see `c3_counterexample`). -/
theorem c3_amended :
    (∀ ds : List Nat, IsDigits ds → ds ≠ [] → dvalFrom 0 ds ≤ int64Max →
        parseInt ds = .ok (dvalFrom 0 ds)) ∧
    (∀ ds : List Nat, IsDigits ds → dvalFrom 0 ds ≤ 2 ^ 63 →
        parseInt (45 :: ds) = .ok (-(dvalFrom 0 ds))) ∧
    readMsg [58, 57, 50, 50, 51, 51, 55, 50, 48, 51, 54, 56, 53, 52, 55, 55, 53, 56,
        48, 55, 13, 10] = .ok (.int int64Max) [] ∧
    readMsg [58, 57, 50, 50, 51, 51, 55, 50, 48, 51, 54, 56, 53, 52, 55, 55, 53, 56,
        48, 56, 13, 10] = .fail .intRange ∧
    readMsg [58, 45, 57, 50, 50, 51, 51, 55, 50, 48, 51, 54, 56, 53, 52, 55, 55, 53,
        56, 48, 57, 13, 10] = .fail .intRange := by
  refine ⟨fun ds hd hne hle => parseInt_digits hd hne hle, ?_, rfl, rfl, rfl⟩
  intro ds hd hle
  exact parseInt_neg_digits hd (by unfold int64Min; omega)

/-- Witness for `c3_amended` at the digit string `"4"`. -/
theorem c3_amended_witness :
    parseInt [52] = .ok (dvalFrom 0 [52]) ∧ parseInt [45, 52] = .ok (-(dvalFrom 0 [52])) :=
  ⟨c3_amended.1 [52] (by decide) (by decide) (by decide),
   c3_amended.2.1 [52] (by decide) (by decide)⟩

/-- **C4** (code bug).  The claim (like the `Float64` doc comment and the
spec) says `Float64.WriteTo` writes exactly `'+' ++ text ++ CRLF` with no
extraneous bytes; but the append destination the code passes to
`strconv.AppendFloat` is `tmp[1:]`, which *excludes* the `'+'` at index 0
and consists of 31 zero bytes (contrast `putint` in `bufpool.go`, which
uses `tmp[:1]` for the same purpose, correctly).  So for every rendered
decimal text the frame delivered to the sink is 31 NUL bytes followed by
the text and CRLF — never the claimed `'+'`-prefixed frame. -/
theorem c4_float_frame_bug (text : List Nat) :
    float64WriteTo text = List.replicate 31 0 ++ (text ++ [13, 10]) ∧
      (float64WriteTo text).headD 43 = 0 ∧
      float64WriteTo text ≠ 43 :: text ++ [13, 10] := by
  refine ⟨by simp [float64WriteTo], by simp [float64WriteTo], ?_⟩
  intro h
  have hlen := congrArg List.length h
  simp [float64WriteTo] at hlen
  omega

/-- **C5** (counterexample).  The claim says an end-of-stream during the
bulk-string payload read is propagated verbatim; but on `"$0\r\n"` — the
package's own test input — the source is exhausted during the payload
read and the decoder reports `ErrMissingCRLF`, a framing error, not the
stream's end-of-stream condition. -/
theorem c5_counterexample :
    readMsg [36, 48, 13, 10] = .fail .missingCRLF ∧ DecErr.missingCRLF ≠ DecErr.eof :=
  ⟨rfl, by decide⟩

/-- **C5** (amended).  After a `'$'<length>CRLF` head with non-negative
in-range length, the decoder requests `length+2` payload bytes but
discards the payload read's error return; when the source has fewer
bytes, the zero-padded buffer fails the CRLF check and the decoder
reports the missing-terminator framing error instead of the stream
error. -/
theorem c5_amended (ds rest : List Nat) (hd : IsDigits ds) (hne : ds ≠ [])
    (hbound : dvalFrom 0 ds + 2 ≤ int64Max)
    (hshort : rest.length < (dvalFrom 0 ds).toNat + 2) :
    readMsg (36 :: ds ++ [13, 10] ++ rest) = .fail .missingCRLF := by
  have h10 : 10 ∉ ds := fun hmem => by have := hd 10 hmem; omega
  rw [readMsg_dollar _ _ h10]
  refine readBulkString_short ds rest (dvalFrom 0 ds) ?_ (dvalFrom_zero_nonneg hd)
    hbound hshort
  rw [readInt_cons, if_neg hne]
  exact parseInt_digits hd hne (by omega)

/-- Witness for `c5_amended`: the frame `"$0\r\n\r"` (payload read gets
one byte of the two requested). -/
theorem c5_amended_witness : readMsg [36, 48, 13, 10, 13] = .fail .missingCRLF :=
  c5_amended [48] [13] (by decide) (by decide) (by decide) (by decide)

/-- **C6.**  On the input `"$9223372036854775807\r\n"` — a bulk-string
head with a huge in-range length — `readBulkString` computes
`length+2`, which wraps to a negative `int64`, and passes it to
`make([]byte, ·)`: a run-time panic, not an error return.  The second
conjunct exhibits the negative size. -/
theorem c6_huge_length_panics :
    readMsg [36, 57, 50, 50, 51, 51, 55, 50, 48, 51, 54, 56, 53, 52, 55, 55, 53, 56,
        48, 55, 13, 10] = .panicked ∧ wrap64 (int64Max + 2) < 0 :=
  ⟨rfl, by decide⟩

/-- **C7.**  For every text `s` containing CR or LF, `Error.WriteTo`
fails with `ErrInvalidError` before anything reaches the sink, and an
`Array` containing such an `Error` element also fails with
`ErrInvalidError` — in this embedding an `.error` result is exactly a
write that committed zero bytes to the caller-visible sink. -/
theorem c7_error_forbidden (s : List Nat) (hs : containsCROrLF s) :
    encodeMsg (.err s) = .error .invalidError ∧
      ∀ ms : List EMsg, EMsg.err s ∈ ms → encodeMsg (.arr ms) = .error .invalidError := by
  constructor
  · rw [show encodeMsg (.err s) = encodeError s from by rw [encodeMsg]]
    rw [encodeError, if_pos hs]
  · intro ms hmem
    rw [encodeMsg, encodeElems_mem_invalid hs ms hmem]

/-- Witness for `c7_error_forbidden`: the text `"a\rb"`, alone and as the
second element of an array. -/
theorem c7_error_forbidden_witness :
    encodeMsg (.err [97, 13, 98]) = .error .invalidError ∧
      encodeMsg (.arr [.int 1, .err [97, 13, 98]]) = .error .invalidError :=
  ⟨(c7_error_forbidden [97, 13, 98] (by decide)).1,
   (c7_error_forbidden [97, 13, 98] (by decide)).2 [.int 1, .err [97, 13, 98]]
     (List.mem_cons_of_mem _ (List.mem_cons_self _ _))⟩

/-- **C8.**  `SimpleString.WriteTo` on text containing CR or LF emits
byte-for-byte the bulk-string encoding (silent promotion, no error);
on text with neither byte it emits `'+' ++ s ++ CRLF`. -/
theorem c8_simplestring_promotion (s : List Nat) :
    (containsCROrLF s → encodeSimpleString s = encodeBulkString s) ∧
      (¬ containsCROrLF s → encodeSimpleString s = 43 :: s ++ crlf) := by
  constructor
  · intro hs
    rw [encodeSimpleString, if_pos hs]
  · intro hs
    rw [encodeSimpleString, if_neg hs]

/-- Witness for `c8_simplestring_promotion`: `"a\rb"` promotes, `"ok"`
stays simple. -/
theorem c8_simplestring_promotion_witness :
    encodeSimpleString [97, 13, 98] = encodeBulkString [97, 13, 98] ∧
      encodeSimpleString [111, 107] = 43 :: [111, 107] ++ crlf :=
  ⟨(c8_simplestring_promotion [97, 13, 98]).1 (by decide),
   (c8_simplestring_promotion [111, 107]).2 (by decide)⟩

/-- **C9** (counterexample).  The claim says a field of just a minus sign
(the frame `":-\r\n"`) fails with the empty-field error; the code instead
parses it as `Int(0)`: `readInt` flags `ErrEmptyInt` only for a
three-byte head, and `parseInt` consumes the `'-'` and returns the
initial accumulator `0`. -/
theorem c9_counterexample : readMsg [58, 45, 13, 10] = .ok (.int 0) [] := rfl

/-- **C9** (amended).  Integer parsing fails with the `ErrEmptyInt` error
exactly when the field between the prefix and the terminator is empty; a
field consisting only of the minus sign instead parses as `Int(0)`. -/
theorem c9_amended :
    (∀ xs : List Nat, 10 ∉ xs →
        (readMsg (58 :: xs ++ [13, 10]) = .fail .emptyInt ↔ xs = [])) ∧
      readMsg [58, 45, 13, 10] = .ok (.int 0) [] := by
  refine ⟨?_, rfl⟩
  intro xs h10
  have hshape : 58 :: xs ++ [13, 10] = 58 :: xs ++ [13, 10] ++ [] := by simp
  rw [hshape, readMsg_colon xs [] h10]
  constructor
  · intro h
    by_contra hne
    rw [if_neg hne] at h
    cases hp : parseInt xs with
    | error e =>
      rw [hp] at h
      simp only at h
      injection h with h2
      exact parseInt_ne_empty xs (by rw [hp, h2])
    | ok v =>
      rw [hp] at h
      exact absurd h (by simp)
  · intro h
    subst h
    rfl

/-- Witness for `c9_amended`: the digit field `"0"` does not raise the
empty error, and (via the same theorem at `[]`) the empty field does. -/
theorem c9_amended_witness :
    (readMsg (58 :: [48] ++ [13, 10]) = .fail .emptyInt ↔ ([48] : List Nat) = []) ∧
      readMsg (58 :: ([] : List Nat) ++ [13, 10]) = .fail .emptyInt :=
  ⟨c9_amended.1 [48] (by decide), (c9_amended.1 [] (by decide)).mpr rfl⟩

/-- **C10.**  The decoder accepts simple-string and error head lines with
a bare CR in the payload: for `p` without LF, `'+' ++ p ++ CRLF` decodes
to `String(p)` and `'-' ++ p ++ CRLF` to `Error(p)` — although the
encoder never emits such a `'+'` frame (a payload with CR is promoted to
a `'$'` bulk-string frame). -/
theorem c10_bare_cr (p : List Nat) (hLF : 10 ∉ p) :
    readMsg (43 :: p ++ crlf) = .ok (.str p) [] ∧
      readMsg (45 :: p ++ crlf) = .ok (.err p) [] ∧
      (13 ∈ p → encodeSimpleString p ≠ 43 :: p ++ crlf) := by
  have h1 : 43 :: p ++ crlf = 43 :: p ++ [13, 10] ++ [] := by simp [crlf]
  have h2 : 45 :: p ++ crlf = 45 :: p ++ [13, 10] ++ [] := by simp [crlf]
  refine ⟨by rw [h1, readMsg_plus p [] hLF], by rw [h2, readMsg_minus p [] hLF], ?_⟩
  intro hCR hcontra
  rw [encodeSimpleString, if_pos (show containsCROrLF p from Or.inl hCR),
    encodeBulkString] at hcontra
  simp at hcontra

/-- Witness for `c10_bare_cr` at the payload `"a\rb"`. -/
theorem c10_bare_cr_witness :
    readMsg (43 :: [97, 13, 98] ++ crlf) = .ok (.str [97, 13, 98]) [] ∧
      readMsg (45 :: [97, 13, 98] ++ crlf) = .ok (.err [97, 13, 98]) [] ∧
      encodeSimpleString [97, 13, 98] ≠ 43 :: [97, 13, 98] ++ crlf :=
  ⟨(c10_bare_cr [97, 13, 98] (by decide)).1,
   (c10_bare_cr [97, 13, 98] (by decide)).2.1,
   (c10_bare_cr [97, 13, 98] (by decide)).2.2 (by decide)⟩

end Rdx
